import Mathlib

/-!
Verification of the streaming pipeline of a Telegram relay bot.

The development shallowly embeds the two core modules:

* `src/telegram/chunker.ts` — safe message chunking, the streaming-draft
  throttler and finalization (`findSafeSplitPoint`, `chunkMessage`,
  `sendChunkedResponse`, `updateStreamingResponse`,
  `finalizeStreamingResponse`);
* `src/claude/executor.ts` — the newline-delimited-JSON event stream reader
  of `executeClaudeQueryStreaming` (per-chunk line splitting, event
  dispatch, accumulated-text reconstruction, tool window flag, terminal
  result capture).

Text is modelled as `List Char`; JavaScript string indices coincide with
list positions for the character sets the claims exercise.  Network calls
(Telegram API, child-process I/O) are modelled as explicit action traces
plus outcome oracles.
-/

/-- Characters of a string literal, the `List Char` view used everywhere. -/
def cs (s : String) : List Char := s.toList

def newlineChar : Char := '\n'

def spaceChar : Char := ' '

/-! ## Occurrences of a pattern inside a list, and JS `String.lastIndexOf`

`occursAt pat s i` states that the pattern `pat` occurs in `s` starting at
position `i` (fully contained, as JS substring search requires). -/

def occursAt (pat s : List Char) (i : Nat) : Prop :=
  i + pat.length ≤ s.length ∧ (s.drop i).take pat.length = pat

instance (pat s : List Char) (i : Nat) : Decidable (occursAt pat s i) :=
  inferInstanceAs (Decidable (_ ∧ _))

/-- Search downward from position `n` for the greatest occurrence of `pat`;
the recursion mirrors the backward scan performed by JS `lastIndexOf`. -/
def lastIdxFrom (pat s : List Char) : Nat → Option Nat
  | 0 => if occursAt pat s 0 then some 0 else none
  | n + 1 => if occursAt pat s (n + 1) then some (n + 1) else lastIdxFrom pat s n

/-- JS `searchText.lastIndexOf(pat)`: position of the last occurrence of
`pat` in `s`, or `none` where JS returns `-1`. -/
def lastIndexOf? (pat s : List Char) : Option Nat :=
  lastIdxFrom pat s s.length

theorem lastIdxFrom_some (pat s : List Char) :
    ∀ n p, lastIdxFrom pat s n = some p →
      occursAt pat s p ∧ p ≤ n ∧ ∀ q, q ≤ n → occursAt pat s q → q ≤ p := by
  intro n
  induction n with
  | zero =>
    intro p h
    by_cases hocc : occursAt pat s 0
    · simp only [lastIdxFrom, if_pos hocc, Option.some.injEq] at h
      subst h
      exact ⟨hocc, le_refl 0, fun q hq _ => hq⟩
    · simp [lastIdxFrom, if_neg hocc] at h
  | succ n ih =>
    intro p h
    by_cases hocc : occursAt pat s (n + 1)
    · simp only [lastIdxFrom, if_pos hocc, Option.some.injEq] at h
      subst h
      exact ⟨hocc, le_refl _, fun q hq _ => hq⟩
    · simp only [lastIdxFrom, if_neg hocc] at h
      obtain ⟨h1, h2, h3⟩ := ih p h
      refine ⟨h1, Nat.le_succ_of_le h2, fun q hq hoq => ?_⟩
      rcases Nat.lt_or_ge q (n + 1) with hlt | hge
      · exact h3 q (Nat.lt_succ_iff.mp hlt) hoq
      · exact absurd hoq (by
          have : q = n + 1 := Nat.le_antisymm hq hge
          simpa [this] using hocc)

theorem lastIdxFrom_none (pat s : List Char) :
    ∀ n, lastIdxFrom pat s n = none → ∀ q, q ≤ n → ¬ occursAt pat s q := by
  intro n
  induction n with
  | zero =>
    intro h q hq
    interval_cases q
    by_cases hocc : occursAt pat s 0
    · simp [lastIdxFrom, if_pos hocc] at h
    · exact hocc
  | succ n ih =>
    intro h q hq
    by_cases hocc : occursAt pat s (n + 1)
    · simp [lastIdxFrom, if_pos hocc] at h
    · simp only [lastIdxFrom, if_neg hocc] at h
      rcases Nat.lt_or_ge q (n + 1) with hlt | hge
      · exact ih h q (Nat.lt_succ_iff.mp hlt)
      · have : q = n + 1 := Nat.le_antisymm hq hge
        simpa [this] using hocc

theorem occursAt_le_length {pat s : List Char} {q : Nat} (h : occursAt pat s q) :
    q ≤ s.length := by
  have := h.1
  omega

theorem lastIndexOf?_some {pat s : List Char} {p : Nat}
    (h : lastIndexOf? pat s = some p) :
    occursAt pat s p ∧ ∀ q, occursAt pat s q → q ≤ p := by
  obtain ⟨h1, _, h3⟩ := lastIdxFrom_some pat s s.length p h
  exact ⟨h1, fun q hq => h3 q (occursAt_le_length hq) hq⟩

theorem lastIndexOf?_none {pat s : List Char}
    (h : lastIndexOf? pat s = none) : ∀ q, ¬ occursAt pat s q := by
  intro q hq
  exact lastIdxFrom_none pat s s.length h q (occursAt_le_length hq) hq

theorem lastIndexOf?_eq_some {pat s : List Char} {p : Nat}
    (hocc : occursAt pat s p) (hmax : ∀ q, occursAt pat s q → q ≤ p) :
    lastIndexOf? pat s = some p := by
  cases h : lastIndexOf? pat s with
  | none => exact absurd hocc (lastIndexOf?_none h p)
  | some r =>
    obtain ⟨hr, hrmax⟩ := lastIndexOf?_some h
    have h1 := hmax r hr
    have h2 := hrmax p hocc
    have : r = p := Nat.le_antisymm h1 h2
    rw [this]

/-! ## `findSafeSplitPoint` and `chunkMessage` (src/telegram/chunker.ts) -/

/-- Condition `idx > maxLength * 0.5` from the source, with the JS `-1`
sentinel modelled as `none`.  For natural numbers, `i > m * 0.5` is exactly
`2 * i > m`. -/
def qualifies (o : Option Nat) (maxLength : Nat) : Bool :=
  match o with
  | some i => decide (2 * i > maxLength)
  | none => false

/-- Embedding of `findSafeSplitPoint(text, maxLength)`: split the window
`searchText = text.slice(0, maxLength)` at the last double newline past the
midpoint, else the last newline, else the last space, else hard cut at
`maxLength`.  The source's intermediate `const` bindings are inlined. -/
def findSafeSplitPoint (text : List Char) (maxLength : Nat) : Nat :=
  if text.length ≤ maxLength then
    text.length
  else if qualifies (lastIndexOf? [newlineChar, newlineChar] (text.take maxLength)) maxLength then
    (lastIndexOf? [newlineChar, newlineChar] (text.take maxLength)).getD 0 + 2
  else if qualifies (lastIndexOf? [newlineChar] (text.take maxLength)) maxLength then
    (lastIndexOf? [newlineChar] (text.take maxLength)).getD 0 + 1
  else if qualifies (lastIndexOf? [spaceChar] (text.take maxLength)) maxLength then
    (lastIndexOf? [spaceChar] (text.take maxLength)).getD 0 + 1
  else
    maxLength

def TELEGRAM_MAX_LENGTH : Nat := 4096

def STREAMING_UPDATE_INTERVAL_MS : Int := 500

theorem qualifies_true {o : Option Nat} {m : Nat} (h : qualifies o m = true) :
    ∃ i, o = some i ∧ 2 * i > m := by
  cases o with
  | none => simp [qualifies] at h
  | some i =>
    refine ⟨i, rfl, ?_⟩
    simpa [qualifies] using h

/-- Any split point returned on an overlong text is positive, at most the
window, and past the midpoint unless it is the hard cut at `maxLength`. -/
theorem occursAt_take_bound {pat text : List Char} {m i : Nat}
    (h : occursAt pat (text.take m) i) : i + pat.length ≤ m := by
  have hx := h.1
  simp only [List.length_take] at hx
  omega

theorem findSafeSplitPoint_bounds (text : List Char) (m : Nat)
    (hm : 0 < m) (hlen : m < text.length) :
    0 < findSafeSplitPoint text m ∧ findSafeSplitPoint text m ≤ m := by
  have hnotle : ¬ text.length ≤ m := by omega
  unfold findSafeSplitPoint
  rw [if_neg hnotle]
  by_cases h1 : qualifies (lastIndexOf? [newlineChar, newlineChar] (text.take m)) m = true
  · obtain ⟨i, hi, hgt⟩ := qualifies_true h1
    have hb : i + 2 ≤ m := by
      have := occursAt_take_bound (lastIndexOf?_some hi).1
      simpa using this
    rw [if_pos h1, hi]
    simp only [Option.getD_some]
    omega
  · rw [if_neg h1]
    by_cases h2 : qualifies (lastIndexOf? [newlineChar] (text.take m)) m = true
    · obtain ⟨i, hi, hgt⟩ := qualifies_true h2
      have hb : i + 1 ≤ m := by
        have := occursAt_take_bound (lastIndexOf?_some hi).1
        simpa using this
      rw [if_pos h2, hi]
      simp only [Option.getD_some]
      omega
    · rw [if_neg h2]
      by_cases h3 : qualifies (lastIndexOf? [spaceChar] (text.take m)) m = true
      · obtain ⟨i, hi, hgt⟩ := qualifies_true h3
        have hb : i + 1 ≤ m := by
          have := occursAt_take_bound (lastIndexOf?_some hi).1
          simpa using this
        rw [if_pos h3, hi]
        simp only [Option.getD_some]
        omega
      · rw [if_neg h3]
        omega

/-- Embedding of the `while` loop of `chunkMessage`: split off safe chunks
while the remainder exceeds the limit. -/
def chunkLoop (remaining : List Char) : List (List Char) :=
  if remaining.length = 0 then []
  else if remaining.length ≤ TELEGRAM_MAX_LENGTH then [remaining]
  else
    remaining.take (findSafeSplitPoint remaining TELEGRAM_MAX_LENGTH) ::
      chunkLoop (remaining.drop (findSafeSplitPoint remaining TELEGRAM_MAX_LENGTH))
termination_by remaining.length
decreasing_by
  have hb := findSafeSplitPoint_bounds remaining TELEGRAM_MAX_LENGTH (by decide)
    (by omega)
  simp only [List.length_drop]
  omega

/-- Embedding of `chunkMessage(text)`. -/
def chunkMessage (text : List Char) : List (List Char) :=
  if text.length ≤ TELEGRAM_MAX_LENGTH then [text] else chunkLoop text

theorem chunkLoop_eq (r : List Char) :
    chunkLoop r =
      if r.length = 0 then []
      else if r.length ≤ TELEGRAM_MAX_LENGTH then [r]
      else r.take (findSafeSplitPoint r TELEGRAM_MAX_LENGTH) ::
        chunkLoop (r.drop (findSafeSplitPoint r TELEGRAM_MAX_LENGTH)) := by
  rw [chunkLoop]

theorem chunkLoop_join (r : List Char) : (chunkLoop r).flatten = r := by
  induction r using chunkLoop.induct with
  | case1 r h =>
    rw [chunkLoop_eq, if_pos h]
    simpa using (List.length_eq_zero.mp h).symm
  | case2 r h1 h2 =>
    rw [chunkLoop_eq, if_neg h1, if_pos h2]
    simp
  | case3 r h1 h2 ih =>
    rw [chunkLoop_eq, if_neg h1, if_neg h2]
    simp only [List.flatten_cons, ih, List.take_append_drop]

theorem chunkLoop_length_le (r : List Char) :
    ∀ c ∈ chunkLoop r, c.length ≤ TELEGRAM_MAX_LENGTH := by
  induction r using chunkLoop.induct with
  | case1 r h =>
    rw [chunkLoop_eq, if_pos h]
    simp
  | case2 r h1 h2 =>
    rw [chunkLoop_eq, if_neg h1, if_pos h2]
    simpa using h2
  | case3 r h1 h2 ih =>
    rw [chunkLoop_eq, if_neg h1, if_neg h2]
    intro c hc
    rcases List.mem_cons.mp hc with hc | hc
    · subst hc
      have hb := findSafeSplitPoint_bounds r TELEGRAM_MAX_LENGTH (by decide) (by omega)
      simp only [List.length_take]
      omega
    · exact ih c hc

theorem chunkLoop_ne_nil (r : List Char) : ∀ c ∈ chunkLoop r, c ≠ [] := by
  induction r using chunkLoop.induct with
  | case1 r h =>
    rw [chunkLoop_eq, if_pos h]
    simp
  | case2 r h1 h2 =>
    rw [chunkLoop_eq, if_neg h1, if_pos h2]
    intro c hc
    rcases List.mem_cons.mp hc with hc | hc
    · subst hc
      intro hnil
      rw [hnil] at h1
      simp at h1
    · simp at hc
  | case3 r h1 h2 ih =>
    rw [chunkLoop_eq, if_neg h1, if_neg h2]
    intro c hc
    rcases List.mem_cons.mp hc with hc | hc
    · subst hc
      have hb := findSafeSplitPoint_bounds r TELEGRAM_MAX_LENGTH (by decide) (by omega)
      intro hnil
      have := congrArg List.length hnil
      simp only [List.length_take, List.length_nil] at this
      omega
    · exact ih c hc

/-- C2 counterexample: on the empty input `chunkMessage` returns the single
empty chunk, so the claim that no chunk is ever empty fails at `""`. -/
theorem chunkMessage_empty_cex :
    chunkMessage [] = [[]] ∧ ¬ (∀ c ∈ chunkMessage ([] : List Char), c ≠ []) := by
  constructor
  · rfl
  · intro h
    exact h [] (by rw [show chunkMessage [] = [[]] from rfl]; simp) rfl

/-- C2 (amended): concatenating the chunks of `chunkMessage` reproduces the
input exactly and no chunk exceeds the 4096-character limit, for every input;
no chunk is empty provided the input is nonempty (on the empty input the
result is the single empty chunk); and an input within the limit yields
exactly one chunk equal to the input. -/
theorem chunkMessage_spec (text : List Char) :
    (chunkMessage text).flatten = text
    ∧ (∀ c ∈ chunkMessage text, c.length ≤ TELEGRAM_MAX_LENGTH)
    ∧ (text ≠ [] → ∀ c ∈ chunkMessage text, c ≠ [])
    ∧ (text.length ≤ TELEGRAM_MAX_LENGTH → chunkMessage text = [text]) := by
  unfold chunkMessage
  by_cases h : text.length ≤ TELEGRAM_MAX_LENGTH
  · rw [if_pos h]
    refine ⟨by simp, ?_, ?_, fun _ => rfl⟩
    · intro c hc
      rcases List.mem_singleton.mp hc with rfl
      exact h
    · intro hne c hc
      rcases List.mem_singleton.mp hc with rfl
      exact hne
  · rw [if_neg h]
    exact ⟨chunkLoop_join text, chunkLoop_length_le text,
      fun _ => chunkLoop_ne_nil text, fun hle => absurd hle h⟩

/-- C2 witness: a concrete nonempty short input, instantiating the amended
statement with its hypotheses discharged. -/
theorem chunkMessage_spec_witness :
    (chunkMessage (cs "hi")).flatten = cs "hi"
    ∧ (∀ c ∈ chunkMessage (cs "hi"), c ≠ [])
    ∧ chunkMessage (cs "hi") = [cs "hi"] := by
  have h := chunkMessage_spec (cs "hi")
  exact ⟨h.1, h.2.2.1 (by decide), h.2.2.2 (by decide)⟩

/-- C9: whenever the remaining text is longer than the (positive) limit, the
split point returned by `findSafeSplitPoint` is strictly positive and at most
the limit, so each `chunkMessage` loop iteration strictly shortens the
remainder; `chunkLoop` is total by exactly this measure. -/
theorem findSafeSplitPoint_progress (text : List Char) (m : Nat)
    (hm : 0 < m) (hlen : m < text.length) :
    0 < findSafeSplitPoint text m ∧ findSafeSplitPoint text m ≤ m
    ∧ (text.drop (findSafeSplitPoint text m)).length < text.length := by
  obtain ⟨h1, h2⟩ := findSafeSplitPoint_bounds text m hm hlen
  refine ⟨h1, h2, ?_⟩
  simp only [List.length_drop]
  omega

/-- C9 witness: concrete instantiation at the limit 2 and a 3-character
text. -/
theorem findSafeSplitPoint_progress_witness :
    0 < findSafeSplitPoint (cs "abc") 2 ∧ findSafeSplitPoint (cs "abc") 2 ≤ 2
    ∧ ((cs "abc").drop (findSafeSplitPoint (cs "abc") 2)).length < (cs "abc").length :=
  findSafeSplitPoint_progress (cs "abc") 2 (by decide) (by decide)

theorem qualifies_false_of_all {pat w : List Char} {m : Nat}
    (h : ∀ q, occursAt pat w q → 2 * q ≤ m) :
    qualifies (lastIndexOf? pat w) m = false := by
  cases hq : lastIndexOf? pat w with
  | none => rfl
  | some q =>
    have hb := h q (lastIndexOf?_some hq).1
    simp only [qualifies, decide_eq_false_iff_not, gt_iff_lt, not_lt]
    omega

/-- C3: on a text longer than `maxLength`, if the last double line-break of
the window lies strictly past the midpoint, the split is exactly after it,
regardless of any later single line-break or space; failing that, the last
qualifying single line-break wins, then the last qualifying space, and
otherwise the cut is exactly at `maxLength`. -/
theorem findSafeSplitPoint_preference_order (text : List Char) (m p : Nat)
    (hm : 0 < m) (hlen : m < text.length) :
    (occursAt [newlineChar, newlineChar] (text.take m) p →
      (∀ q, occursAt [newlineChar, newlineChar] (text.take m) q → q ≤ p) →
      2 * p > m →
      findSafeSplitPoint text m = p + 2)
    ∧ ((∀ q, occursAt [newlineChar, newlineChar] (text.take m) q → 2 * q ≤ m) →
      occursAt [newlineChar] (text.take m) p →
      (∀ q, occursAt [newlineChar] (text.take m) q → q ≤ p) →
      2 * p > m →
      findSafeSplitPoint text m = p + 1)
    ∧ ((∀ q, occursAt [newlineChar, newlineChar] (text.take m) q → 2 * q ≤ m) →
      (∀ q, occursAt [newlineChar] (text.take m) q → 2 * q ≤ m) →
      occursAt [spaceChar] (text.take m) p →
      (∀ q, occursAt [spaceChar] (text.take m) q → q ≤ p) →
      2 * p > m →
      findSafeSplitPoint text m = p + 1)
    ∧ ((∀ q, occursAt [newlineChar, newlineChar] (text.take m) q → 2 * q ≤ m) →
      (∀ q, occursAt [newlineChar] (text.take m) q → 2 * q ≤ m) →
      (∀ q, occursAt [spaceChar] (text.take m) q → 2 * q ≤ m) →
      findSafeSplitPoint text m = m) := by
  have hnotle : ¬ text.length ≤ m := by omega
  refine ⟨?_, ?_, ?_, ?_⟩
  · intro hocc hmax hmid
    have hL := lastIndexOf?_eq_some hocc hmax
    have hq : qualifies (lastIndexOf? [newlineChar, newlineChar] (text.take m)) m = true := by
      rw [hL]
      simpa [qualifies] using hmid
    unfold findSafeSplitPoint
    rw [if_neg hnotle, if_pos hq, hL]
    simp only [Option.getD_some]
  · intro hno hocc hmax hmid
    have hq1 := qualifies_false_of_all hno
    have hL := lastIndexOf?_eq_some hocc hmax
    have hq2 : qualifies (lastIndexOf? [newlineChar] (text.take m)) m = true := by
      rw [hL]
      simpa [qualifies] using hmid
    unfold findSafeSplitPoint
    rw [if_neg hnotle, if_neg (by simp [hq1]), if_pos hq2, hL]
    simp only [Option.getD_some]
  · intro hno1 hno2 hocc hmax hmid
    have hq1 := qualifies_false_of_all hno1
    have hq2 := qualifies_false_of_all hno2
    have hL := lastIndexOf?_eq_some hocc hmax
    have hq3 : qualifies (lastIndexOf? [spaceChar] (text.take m)) m = true := by
      rw [hL]
      simpa [qualifies] using hmid
    unfold findSafeSplitPoint
    rw [if_neg hnotle, if_neg (by simp [hq1]), if_neg (by simp [hq2]), if_pos hq3, hL]
    simp only [Option.getD_some]
  · intro hno1 hno2 hno3
    have hq1 := qualifies_false_of_all hno1
    have hq2 := qualifies_false_of_all hno2
    have hq3 := qualifies_false_of_all hno3
    unfold findSafeSplitPoint
    rw [if_neg hnotle, if_neg (by simp [hq1]), if_neg (by simp [hq2]),
      if_neg (by simp [hq3])]

/-- C3 witness: in the window of width 6 of "abcd\n\nxyz" the double
line-break at position 4 lies past the midpoint, and the split lands exactly
after it. -/
theorem findSafeSplitPoint_preference_order_witness :
    findSafeSplitPoint (cs "abcd\n\nxyz") 6 = 4 + 2 :=
  (findSafeSplitPoint_preference_order (cs "abcd\n\nxyz") 6 4 (by decide)
      (by decide)).1
    (by decide) (fun q hq => by have h := occursAt_take_bound hq; simp at h; omega) (by decide)

/-! ## Telegram delivery layer (src/telegram/chunker.ts, streaming part)

Network effects are modelled as traces of attempted API calls plus outcome
oracles standing for the Telegram API's reaction to each attempt. -/

/-- Outcome of one rendered message: the Markdown attempt succeeds, or only
the plain-text retry succeeds, or both attempts fail. -/
inductive SendOutcome where
  | mdOk
  | plainOk
  | bothFail
deriving DecidableEq

/-- One attempted Telegram API call, recorded in attempt order. -/
inductive TgAction where
  | editMd (chatId messageId : Int) (text : List Char)
  | editPlain (chatId messageId : Int) (text : List Char)
  | replyMd (text : List Char)
  | replyPlain (text : List Char)
  | deleteMsg (chatId messageId : Int)
deriving DecidableEq

/-- Embedding of the `StreamingResponseState` interface. -/
structure StreamingResponseState where
  chatId : Int
  messageId : Int
  currentText : List Char
  lastUpdateTime : Int
  isComplete : Bool
  sentChunks : Nat
deriving DecidableEq

def backtickChar : Char := Char.ofNat 96

/-- The cursor marker appended to a live draft (U+258C in the source). -/
def cursorChar : Char := Char.ofNat 9612

/-- JS `displayText.replace(/[_*`]/g, "")`: drop every Markdown character. -/
def stripMarkdown (s : List Char) : List Char :=
  s.filter (fun c => !(c == '_') && !(c == '*') && !(c == backtickChar))

/-- JS `s.slice(-k)`: the last `min k s.length` characters. -/
def jsSliceLast (k : Nat) (s : List Char) : List Char :=
  s.drop (s.length - k)

/-- The display text computed by `updateStreamingResponse` before editing:
overlong text is truncated to its tail behind a streaming banner, and a
cursor marker is appended while the response is incomplete and the text does
not already end in an underscore. -/
def displayTextOf (st : StreamingResponseState) (newText : List Char) : List Char :=
  let base :=
    if newText.length > TELEGRAM_MAX_LENGTH - 50 then
      cs "_(streaming...)_\n\n" ++ jsSliceLast (TELEGRAM_MAX_LENGTH - 100) newText
    else newText
  if !st.isComplete && !(base.getLast? == some '_') then
    base ++ [spaceChar, cursorChar]
  else base

/-- One call to `updateStreamingResponse` as seen by the model: the clock
value of `Date.now()`, the arguments, and the API outcome oracle. -/
structure UpdCall where
  now : Int
  newText : List Char
  force : Bool
  outcome : SendOutcome
deriving DecidableEq

/-- Embedding of `updateStreamingResponse`: throttle gate, unchanged-text
gate, state mutation before the edit attempts, then the Markdown attempt and
the plain retry with Markdown characters stripped.  Returns the mutated
state, the boolean result, and the trace of attempted calls. -/
def updateStreamingResponse (st : StreamingResponseState) (c : UpdCall) :
    StreamingResponseState × Bool × List TgAction :=
  if c.force = false ∧ c.now - st.lastUpdateTime < STREAMING_UPDATE_INTERVAL_MS then
    (st, false, [])
  else if c.newText = st.currentText then
    (st, false, [])
  else
    let st2 := { st with currentText := c.newText, lastUpdateTime := c.now }
    match c.outcome with
    | .mdOk => (st2, true, [.editMd st.chatId st.messageId (displayTextOf st c.newText)])
    | .plainOk => (st2, true,
        [.editMd st.chatId st.messageId (displayTextOf st c.newText),
         .editPlain st.chatId st.messageId (stripMarkdown (displayTextOf st c.newText))])
    | .bothFail => (st2, false,
        [.editMd st.chatId st.messageId (displayTextOf st c.newText),
         .editPlain st.chatId st.messageId (stripMarkdown (displayTextOf st c.newText))])

/-- Fold a sequence of `updateStreamingResponse` calls over one handle,
collecting each call's boolean result. -/
def runUpdates (st : StreamingResponseState) :
    List UpdCall → StreamingResponseState × List Bool
  | [] => (st, [])
  | c :: rest =>
    ((runUpdates (updateStreamingResponse st c).1 rest).1,
      (updateStreamingResponse st c).2.1 ::
        (runUpdates (updateStreamingResponse st c).1 rest).2)

theorem runUpdates_cons (st : StreamingResponseState) (c : UpdCall) (l : List UpdCall) :
    runUpdates st (c :: l) =
      ((runUpdates (updateStreamingResponse st c).1 l).1,
        (updateStreamingResponse st c).2.1 ::
          (runUpdates (updateStreamingResponse st c).1 l).2) := rfl

theorem update_true_gate {st : StreamingResponseState} {c : UpdCall}
    (h : (updateStreamingResponse st c).2.1 = true) :
    (c.force = true ∨ c.now - st.lastUpdateTime ≥ STREAMING_UPDATE_INTERVAL_MS)
    ∧ c.newText ≠ st.currentText := by
  unfold updateStreamingResponse at h
  by_cases h1 : c.force = false ∧ c.now - st.lastUpdateTime < STREAMING_UPDATE_INTERVAL_MS
  · rw [if_pos h1] at h
    simp at h
  · rw [if_neg h1] at h
    by_cases h2 : c.newText = st.currentText
    · rw [if_pos h2] at h
      simp at h
    · refine ⟨?_, h2⟩
      rcases Bool.eq_false_or_eq_true c.force with hf | hf
      · exact Or.inl hf
      · right
        by_contra hlt
        exact h1 ⟨hf, by omega⟩

theorem update_true_lastUpdate {st : StreamingResponseState} {c : UpdCall}
    (h : (updateStreamingResponse st c).2.1 = true) :
    (updateStreamingResponse st c).1.lastUpdateTime = c.now := by
  unfold updateStreamingResponse at h ⊢
  by_cases h1 : c.force = false ∧ c.now - st.lastUpdateTime < STREAMING_UPDATE_INTERVAL_MS
  · rw [if_pos h1] at h
    simp at h
  · rw [if_neg h1] at h ⊢
    by_cases h2 : c.newText = st.currentText
    · rw [if_pos h2] at h
      simp at h
    · rw [if_neg h2] at h ⊢
      cases c.outcome <;> rfl

theorem update_lastUpdate_cases (st : StreamingResponseState) (c : UpdCall) :
    (updateStreamingResponse st c).1.lastUpdateTime = st.lastUpdateTime
    ∨ (updateStreamingResponse st c).1.lastUpdateTime = c.now := by
  unfold updateStreamingResponse
  by_cases h1 : c.force = false ∧ c.now - st.lastUpdateTime < STREAMING_UPDATE_INTERVAL_MS
  · rw [if_pos h1]
    exact Or.inl rfl
  · rw [if_neg h1]
    by_cases h2 : c.newText = st.currentText
    · rw [if_pos h2]
      exact Or.inl rfl
    · rw [if_neg h2]
      cases c.outcome <;> exact Or.inr rfl

theorem runUpdates_lastUpdate_ge (l : List UpdCall) :
    ∀ (st : StreamingResponseState) (t : Int), st.lastUpdateTime ≥ t →
      (∀ c ∈ l, c.now ≥ t) → (runUpdates st l).1.lastUpdateTime ≥ t := by
  induction l with
  | nil =>
    intro st t h _
    simpa [runUpdates] using h
  | cons c rest ih =>
    intro st t h hall
    rw [runUpdates_cons]
    refine ih _ t ?_ (fun c' hc' => hall c' (List.mem_cons_of_mem _ hc'))
    rcases update_lastUpdate_cases st c with hc | hc
    · rw [hc]
      exact h
    · rw [hc]
      exact hall c (List.mem_cons_self c rest)

theorem update_same_text_skip (st : StreamingResponseState) (c : UpdCall)
    (h2 : c.newText = st.currentText) :
    updateStreamingResponse st c = (st, false, []) := by
  unfold updateStreamingResponse
  by_cases h1 : c.force = false ∧ c.now - st.lastUpdateTime < STREAMING_UPDATE_INTERVAL_MS
  · rw [if_pos h1]
  · rw [if_neg h1, if_pos h2]

theorem update_gates_pass_eval (st : StreamingResponseState) (c : UpdCall)
    (hgate : ¬ (c.force = false ∧ c.now - st.lastUpdateTime < STREAMING_UPDATE_INTERVAL_MS))
    (hdiff : c.newText ≠ st.currentText) (hfail : c.outcome = SendOutcome.bothFail) :
    updateStreamingResponse st c =
      ({ st with currentText := c.newText, lastUpdateTime := c.now }, false,
       [TgAction.editMd st.chatId st.messageId (displayTextOf st c.newText),
        TgAction.editPlain st.chatId st.messageId (stripMarkdown (displayTextOf st c.newText))]) := by
  unfold updateStreamingResponse
  rw [if_neg hgate, if_neg hdiff, hfail]

theorem runUpdates_aux (calls : List UpdCall) :
    ∀ st0 : StreamingResponseState,
      calls.Pairwise (fun a b => a.now ≤ b.now) →
      ∀ i c, calls.get? i = some c → (runUpdates st0 calls).2.get? i = some true →
        ((c.force = true ∨
            c.now - ((runUpdates st0 (calls.take i)).1).lastUpdateTime
              ≥ STREAMING_UPDATE_INTERVAL_MS)
          ∧ c.newText ≠ ((runUpdates st0 (calls.take i)).1).currentText)
        ∧ ∀ j cj, j < i → calls.get? j = some cj →
            (runUpdates st0 calls).2.get? j = some true →
            ((runUpdates st0 (calls.take i)).1).lastUpdateTime ≥ cj.now := by
  induction calls with
  | nil =>
    intro st0 _ i c hget _
    simp at hget
  | cons c0 rest ih =>
    intro st0 hpair i c hget hok
    cases i with
    | zero =>
      have hc : c = c0 := by
        simp only [List.get?_cons_zero, Option.some.injEq] at hget
        exact hget.symm
      subst hc
      have hok0 : (updateStreamingResponse st0 c).2.1 = true := by
        simpa [runUpdates_cons] using hok
      obtain ⟨hgate, hdiff⟩ := update_true_gate hok0
      refine ⟨?_, ?_⟩
      · simpa [runUpdates] using ⟨hgate, hdiff⟩
      · intro j cj hj _ _
        exact absurd hj (Nat.not_lt_zero j)
    | succ k =>
      have hget' : rest.get? k = some c := by simpa using hget
      have hok' : (runUpdates (updateStreamingResponse st0 c0).1 rest).2.get? k
          = some true := by
        simpa [runUpdates_cons] using hok
      have hpair' := List.Pairwise.of_cons hpair
      have IH := ih (updateStreamingResponse st0 c0).1 hpair' k c hget' hok'
      have hstate : (runUpdates st0 ((c0 :: rest).take (k + 1))).1
          = (runUpdates (updateStreamingResponse st0 c0).1 (rest.take k)).1 := by
        rw [List.take_succ_cons, runUpdates_cons]
      refine ⟨?_, ?_⟩
      · rw [hstate]
        exact IH.1
      · intro j cj hj hgetj hokj
        cases j with
        | zero =>
          have hcj : cj = c0 := by
            simp only [List.get?_cons_zero, Option.some.injEq] at hgetj
            exact hgetj.symm
          have hok0 : (updateStreamingResponse st0 c0).2.1 = true := by
            simpa [runUpdates_cons] using hokj
          rw [hstate, hcj]
          refine runUpdates_lastUpdate_ge (rest.take k) _ c0.now ?_ ?_
          · rw [update_true_lastUpdate hok0]
          · intro c' hc'
            exact List.rel_of_pairwise_cons hpair (List.take_subset k rest hc')
        | succ j' =>
          have hgetj' : rest.get? j' = some cj := by simpa using hgetj
          have hokj' : (runUpdates (updateStreamingResponse st0 c0).1 rest).2.get? j'
              = some true := by
            simpa [runUpdates_cons] using hokj
          rw [hstate]
          exact IH.2 j' cj (by omega) hgetj' hokj'

/-- A fresh handle for the concrete throttling scenario (creation timestamp
0). -/
def throttleDemoState : StreamingResponseState :=
  { chatId := 1, messageId := 2, currentText := [], lastUpdateTime := 0,
    isComplete := false, sentChunks := 0 }

/-- Three unforced calls: two different texts inside one 500 ms window, then
a third call after the window has elapsed. -/
def throttleDemoCalls : List UpdCall :=
  [ { now := 600, newText := cs "a", force := false, outcome := SendOutcome.mdOk },
    { now := 800, newText := cs "b", force := false, outcome := SendOutcome.mdOk },
    { now := 1200, newText := cs "c", force := false, outcome := SendOutcome.mdOk } ]

/-- C7: along any call sequence with non-decreasing clock, a call performs an
edit only if it is forced, or the throttle interval has elapsed since every
previous successful edit on this handle and its text differs from the last
rendered text (the handle's `currentText`); and in the concrete scenario two
unforced calls with different texts inside one window perform exactly one
edit (the first) while a third call after the window performs a second
edit. -/
theorem updateStreamingResponse_throttle (st0 : StreamingResponseState)
    (calls : List UpdCall)
    (hmono : calls.Pairwise (fun a b => a.now ≤ b.now)) :
    (∀ i c, calls.get? i = some c → (runUpdates st0 calls).2.get? i = some true →
      (c.force = true ∨ ∀ j cj, j < i → calls.get? j = some cj →
          (runUpdates st0 calls).2.get? j = some true →
          c.now - cj.now ≥ STREAMING_UPDATE_INTERVAL_MS)
      ∧ c.newText ≠ ((runUpdates st0 (calls.take i)).1).currentText)
    ∧ (runUpdates throttleDemoState throttleDemoCalls).2 = [true, false, true] := by
  constructor
  · intro i c hget hok
    have H := runUpdates_aux calls st0 hmono i c hget hok
    refine ⟨?_, H.1.2⟩
    rcases H.1.1 with hf | helapsed
    · exact Or.inl hf
    · right
      intro j cj hj hgetj hokj
      have hge := H.2 j cj hj hgetj hokj
      omega
  · decide

/-- C7 witness: the concrete three-call scenario, with the monotone-clock
hypothesis discharged. -/
theorem updateStreamingResponse_throttle_witness :
    (runUpdates throttleDemoState throttleDemoCalls).2 = [true, false, true] :=
  (updateStreamingResponse_throttle throttleDemoState throttleDemoCalls (by decide)).2

/-- C10: when the throttle and text-difference gates pass, the handle state
is mutated before any network edit: even if both edit attempts then fail,
`currentText` holds the new text and `lastUpdateTime` the call time while
the call returns `false`; consequently any later call with the same text is
skipped as unchanged, leaving the state untouched. -/
theorem updateStreamingResponse_mutates_before_edit (st : StreamingResponseState)
    (c : UpdCall)
    (hgate : c.force = true ∨ c.now - st.lastUpdateTime ≥ STREAMING_UPDATE_INTERVAL_MS)
    (hdiff : c.newText ≠ st.currentText)
    (hfail : c.outcome = SendOutcome.bothFail) :
    (updateStreamingResponse st c).1.currentText = c.newText
    ∧ (updateStreamingResponse st c).1.lastUpdateTime = c.now
    ∧ (updateStreamingResponse st c).2.1 = false
    ∧ ∀ c2 : UpdCall, c2.newText = c.newText →
        updateStreamingResponse (updateStreamingResponse st c).1 c2 =
          ((updateStreamingResponse st c).1, false, []) := by
  have hgate' : ¬ (c.force = false ∧ c.now - st.lastUpdateTime < STREAMING_UPDATE_INTERVAL_MS) := by
    rcases hgate with hf | he
    · intro hcon
      rw [hf] at hcon
      exact absurd hcon.1 (by decide)
    · intro hcon
      have := hcon.2
      omega
  have heval := update_gates_pass_eval st c hgate' hdiff hfail
  refine ⟨by rw [heval], by rw [heval], by rw [heval], ?_⟩
  intro c2 h2
  apply update_same_text_skip
  rw [heval, h2]

/-- A gate-passing call whose two edit attempts both fail. -/
def sampleFailCall : UpdCall :=
  { now := 600, newText := cs "a", force := false, outcome := SendOutcome.bothFail }

/-- A later forced call re-sending the identical text. -/
def sampleSameCall : UpdCall :=
  { now := 700, newText := cs "a", force := true, outcome := SendOutcome.mdOk }

/-- C10 witness: the concrete failing call mutates the state, returns false,
and the follow-up call with the same text is skipped. -/
theorem updateStreamingResponse_mutates_before_edit_witness :
    (updateStreamingResponse throttleDemoState sampleFailCall).1.currentText
      = sampleFailCall.newText
    ∧ (updateStreamingResponse throttleDemoState sampleFailCall).1.lastUpdateTime
      = sampleFailCall.now
    ∧ (updateStreamingResponse throttleDemoState sampleFailCall).2.1 = false
    ∧ updateStreamingResponse
        (updateStreamingResponse throttleDemoState sampleFailCall).1 sampleSameCall =
        ((updateStreamingResponse throttleDemoState sampleFailCall).1, false, []) := by
  have h := updateStreamingResponse_mutates_before_edit throttleDemoState sampleFailCall
    (Or.inr (by decide)) (by decide) rfl
  exact ⟨h.1, h.2.1, h.2.2.1, h.2.2.2 sampleSameCall rfl⟩

/-! ## `sendChunkedResponse` and `finalizeStreamingResponse` -/

def contMarker : List Char := cs "_(continued...)_"

def partMarker (n : Nat) : List Char := cs "_(part " ++ cs (toString n) ++ cs ")_"

/-- Embedding of the send loop of `sendChunkedResponse`: chunk `i` of
`total` is annotated exactly as in the source and attempted as Markdown,
then as the raw chunk, then as an error notice, according to the per-chunk
outcome oracle `oc`.  The inter-chunk pacing delay has no observable effect
on the message trace and is not recorded. -/
def sendChunkLoop (oc : Nat → SendOutcome) (total : Nat) :
    Nat → List (List Char) → List TgAction
  | _, [] => []
  | i, chunk :: rest =>
    (match oc i with
      | .mdOk => [TgAction.replyMd (if total > 1 then
          (if i = 0 then chunk ++ cs "\n\n" ++ contMarker
           else if i < total - 1 then
             partMarker (i + 1) ++ cs "\n\n" ++ chunk ++ cs "\n\n" ++ contMarker
           else partMarker (i + 1) ++ cs "\n\n" ++ chunk)
          else chunk)]
      | .plainOk => [TgAction.replyMd (if total > 1 then
          (if i = 0 then chunk ++ cs "\n\n" ++ contMarker
           else if i < total - 1 then
             partMarker (i + 1) ++ cs "\n\n" ++ chunk ++ cs "\n\n" ++ contMarker
           else partMarker (i + 1) ++ cs "\n\n" ++ chunk)
          else chunk), TgAction.replyPlain chunk]
      | .bothFail => [TgAction.replyMd (if total > 1 then
          (if i = 0 then chunk ++ cs "\n\n" ++ contMarker
           else if i < total - 1 then
             partMarker (i + 1) ++ cs "\n\n" ++ chunk ++ cs "\n\n" ++ contMarker
           else partMarker (i + 1) ++ cs "\n\n" ++ chunk)
          else chunk), TgAction.replyPlain chunk,
          TgAction.replyPlain (cs "Error sending message part " ++ cs (toString (i + 1)))])
      ++ sendChunkLoop oc total (i + 1) rest

/-- Embedding of `sendChunkedResponse(ctx, text)` as its trace of attempted
sends. -/
def sendChunkedResponse (oc : Nat → SendOutcome) (text : List Char) : List TgAction :=
  sendChunkLoop oc (chunkMessage text).length 0 (chunkMessage text)

/-- Embedding of `finalizeStreamingResponse`: mark complete, record the
final text, then either edit the draft in place (single chunk, with the
plain retry and the multi-message fallback when both edits fail) or attempt
to delete the draft (failures ignored in the source) and send all chunks. -/
def finalizeStreamingResponse (st : StreamingResponseState) (finalText : List Char)
    (editOutcome : SendOutcome) (oc : Nat → SendOutcome) :
    StreamingResponseState × List TgAction :=
  if (chunkMessage finalText).length = 1 then
    match editOutcome with
    | .mdOk => ({ st with isComplete := true, currentText := finalText },
        [.editMd st.chatId st.messageId finalText])
    | .plainOk => ({ st with isComplete := true, currentText := finalText },
        [.editMd st.chatId st.messageId finalText,
         .editPlain st.chatId st.messageId finalText])
    | .bothFail => ({ st with isComplete := true, currentText := finalText },
        [.editMd st.chatId st.messageId finalText,
         .editPlain st.chatId st.messageId finalText] ++ sendChunkedResponse oc finalText)
  else
    ({ st with isComplete := true, currentText := finalText },
      .deleteMsg st.chatId st.messageId :: sendChunkedResponse oc finalText)

/-- Spec-side text of part `i` (0-based) of `n` chunks, written from the
claim's words: first part carries a continuation marker, middle parts part
number plus continuation marker, the last part the part number only. -/
def specPartText (n i : Nat) (chunk : List Char) : List Char :=
  if i = 0 then chunk ++ cs "\n\n" ++ contMarker
  else if i + 1 < n then
    partMarker (i + 1) ++ cs "\n\n" ++ chunk ++ cs "\n\n" ++ contMarker
  else partMarker (i + 1) ++ cs "\n\n" ++ chunk

theorem sendChunkLoop_allOk (total : Nat) (htotal : total > 1) :
    ∀ (l : List (List Char)) (i0 : Nat),
      sendChunkLoop (fun _ => SendOutcome.mdOk) total i0 l =
        List.mapIdx (fun j chunk => TgAction.replyMd (specPartText total (i0 + j) chunk)) l := by
  intro l
  induction l with
  | nil =>
    intro i0
    simp [sendChunkLoop]
  | cons chunk rest ih =>
    intro i0
    rw [sendChunkLoop, List.mapIdx_cons]
    have hhead : (if total > 1 then
        (if i0 = 0 then chunk ++ cs "\n\n" ++ contMarker
         else if i0 < total - 1 then
           partMarker (i0 + 1) ++ cs "\n\n" ++ chunk ++ cs "\n\n" ++ contMarker
         else partMarker (i0 + 1) ++ cs "\n\n" ++ chunk)
        else chunk) = specPartText total (i0 + 0) chunk := by
      rw [if_pos htotal]
      unfold specPartText
      by_cases h0 : i0 = 0
      · simp [h0]
      · rw [if_neg h0, if_neg (by omega : ¬ i0 + 0 = 0)]
        by_cases h1 : i0 < total - 1
        · rw [if_pos h1, if_pos (by omega)]
        · rw [if_neg h1, if_neg (by omega)]
    rw [ih (i0 + 1)]
    simp only [List.cons_append, List.nil_append, hhead]
    congr 1
    have harg : (fun j (chunk : List Char) =>
        TgAction.replyMd (specPartText total (i0 + 1 + j) chunk)) =
        (fun j (chunk : List Char) =>
          TgAction.replyMd (specPartText total (i0 + (j + 1)) chunk)) := by
      funext j chunk
      have : i0 + 1 + j = i0 + (j + 1) := by omega
      rw [this]
    rw [harg]

/-- C8: single-chunk final text edits the draft in place, reaching the
multi-message send path only when both in-place edits fail; multi-chunk
final text first attempts to delete the draft (its failure is ignored by the
source) and then sends every chunk as a new message in strict order, and
with all sends succeeding the trace is exactly the chunks in order annotated
per the claim: continuation marker on the first part, part number plus
continuation marker on middle parts, part number only on the last. -/
theorem finalizeStreamingResponse_spec (st : StreamingResponseState)
    (finalText : List Char) (oc : Nat → SendOutcome) :
    ((chunkMessage finalText).length = 1 →
      (finalizeStreamingResponse st finalText SendOutcome.mdOk oc).2 =
        [TgAction.editMd st.chatId st.messageId finalText]
      ∧ (finalizeStreamingResponse st finalText SendOutcome.bothFail oc).2 =
        [TgAction.editMd st.chatId st.messageId finalText,
         TgAction.editPlain st.chatId st.messageId finalText]
          ++ sendChunkedResponse oc finalText)
    ∧ ((chunkMessage finalText).length > 1 → ∀ eo,
      (finalizeStreamingResponse st finalText eo oc).2 =
        TgAction.deleteMsg st.chatId st.messageId :: sendChunkedResponse oc finalText)
    ∧ ((chunkMessage finalText).length > 1 →
      sendChunkedResponse (fun _ => SendOutcome.mdOk) finalText =
        List.mapIdx (fun i chunk =>
          TgAction.replyMd (specPartText (chunkMessage finalText).length i chunk))
          (chunkMessage finalText)) := by
  refine ⟨?_, ?_, ?_⟩
  · intro h1
    unfold finalizeStreamingResponse
    refine ⟨?_, ?_⟩
    · rw [if_pos h1]
    · rw [if_pos h1]
  · intro h1 eo
    unfold finalizeStreamingResponse
    rw [if_neg (by omega)]
  · intro h1
    unfold sendChunkedResponse
    rw [sendChunkLoop_allOk (chunkMessage finalText).length h1 (chunkMessage finalText) 0]
    congr 1
    funext j chunk
    rw [Nat.zero_add]

/-- C8 witness: a short final text chunks to exactly one chunk and the
finalization trace is the single in-place Markdown edit. -/
theorem finalizeStreamingResponse_spec_witness :
    (finalizeStreamingResponse throttleDemoState (cs "done")
        SendOutcome.mdOk (fun _ => SendOutcome.mdOk)).2 =
      [TgAction.editMd throttleDemoState.chatId throttleDemoState.messageId (cs "done")] :=
  ((finalizeStreamingResponse_spec throttleDemoState (cs "done")
      (fun _ => SendOutcome.mdOk)).1 (by decide)).1

/-! ## The event stream reader (src/claude/executor.ts)

The reader consumes stdout chunks, splits each chunk on newlines, parses
each kept line with `JSON.parse`, and dispatches the four event kinds.
`JSON.parse` is modelled for the protocol subset the CLI emits: objects,
arrays, strings without escape sequences, booleans, `null` and integers. -/

def isJsonWs (c : Char) : Bool :=
  c == ' ' || c == '\t' || c == '\n' || c == '\r'

def skipWs (s : List Char) : List Char := s.dropWhile isJsonWs

def quoteChar : Char := Char.ofNat 34

def lbraceChar : Char := Char.ofNat 123

def rbraceChar : Char := Char.ofNat 125

inductive Json where
  | jnull
  | jbool (b : Bool)
  | jnum (n : Int)
  | jstr (s : List Char)
  | jarr (elems : List Json)
  | jobj (fields : List (List Char × Json))

def parseStringLit (s : List Char) : Option (List Char × List Char) :=
  match s with
  | [] => none
  | c :: rest =>
    if c = quoteChar then
      match rest.dropWhile (fun d => !(d == quoteChar)) with
      | d :: rest2 =>
        if d = quoteChar then
          some (rest.takeWhile (fun d' => !(d' == quoteChar)), rest2)
        else none
      | [] => none
    else none

def digitVal (c : Char) : Nat := c.toNat - 48

def parseNat (s : List Char) : Option (Nat × List Char) :=
  if s.takeWhile Char.isDigit = [] then none
  else some ((s.takeWhile Char.isDigit).foldl (fun a c => 10 * a + digitVal c) 0,
    s.dropWhile Char.isDigit)

def parseNumber (s : List Char) : Option (Int × List Char) :=
  match s with
  | [] => none
  | c :: rest =>
    if c = '-' then (parseNat rest).map (fun p => (-(p.1 : Int), p.2))
    else (parseNat s).map (fun p => ((p.1 : Int), p.2))

mutual

def parseValue : Nat → List Char → Option (Json × List Char)
  | 0, _ => none
  | fuel + 1, s =>
    match skipWs s with
    | [] => none
    | c :: rest =>
      if c = quoteChar then
        (parseStringLit (c :: rest)).map (fun p => (Json.jstr p.1, p.2))
      else if c = lbraceChar then
        (parseMembers fuel rest).map (fun p => (Json.jobj p.1, p.2))
      else if c = '[' then
        (parseElems fuel rest).map (fun p => (Json.jarr p.1, p.2))
      else if (c :: rest).take 4 = cs "true" then
        some (Json.jbool true, (c :: rest).drop 4)
      else if (c :: rest).take 5 = cs "false" then
        some (Json.jbool false, (c :: rest).drop 5)
      else if (c :: rest).take 4 = cs "null" then
        some (Json.jnull, (c :: rest).drop 4)
      else
        (parseNumber (c :: rest)).map (fun p => (Json.jnum p.1, p.2))

def parseMembers : Nat → List Char → Option (List (List Char × Json) × List Char)
  | 0, _ => none
  | fuel + 1, s =>
    match skipWs s with
    | [] => none
    | c :: rest =>
      if c = rbraceChar then some ([], rest)
      else
        match parseStringLit (c :: rest) with
        | none => none
        | some (key, r1) =>
          match skipWs r1 with
          | [] => none
          | d :: r2 =>
            if d = ':' then
              match parseValue fuel r2 with
              | none => none
              | some (v, r3) =>
                match skipWs r3 with
                | [] => none
                | e :: r4 =>
                  if e = ',' then
                    (parseMembers fuel r4).map (fun p => ((key, v) :: p.1, p.2))
                  else if e = rbraceChar then some ([(key, v)], r4)
                  else none
            else none

def parseElems : Nat → List Char → Option (List Json × List Char)
  | 0, _ => none
  | fuel + 1, s =>
    match skipWs s with
    | [] => none
    | c :: rest =>
      if c = ']' then some ([], rest)
      else
        match parseValue fuel (c :: rest) with
        | none => none
        | some (v, r1) =>
          match skipWs r1 with
          | [] => none
          | d :: r2 =>
            if d = ',' then
              (parseElems fuel r2).map (fun p => (v :: p.1, p.2))
            else if d = ']' then some ([v], r2)
            else none

end

/-- Model of `JSON.parse` on one line: one complete value, nothing but
whitespace after it. -/
def jsonParse (s : List Char) : Option Json :=
  match parseValue (s.length + 1) s with
  | some (v, rest) => if skipWs rest = [] then some v else none
  | none => none

/-- Lookup of an object field (the protocol emits no duplicate keys). -/
def objField : List (List Char × Json) → List Char → Option Json
  | [], _ => none
  | (k, v) :: rest, key => if k = key then some v else objField rest key

def jsonField (j : Json) (key : String) : Option Json :=
  match j with
  | .jobj fs => objField fs (cs key)
  | _ => none

def strField (j : Json) (key : String) : Option (List Char) :=
  match jsonField j key with
  | some (.jstr s) => some s
  | _ => none

/-- JS truthiness of a field value. -/
def jsTruthyJson : Option Json → Bool
  | some (.jbool b) => b
  | some .jnull => false
  | some (.jnum n) => decide (n ≠ 0)
  | some (.jstr s) => decide (s ≠ [])
  | some (.jarr _) => true
  | some (.jobj _) => true
  | none => false

/-- The optional `block.input` fields referenced by the progress
templates. -/
structure ToolInput where
  file_path : Option (List Char) := none
  pattern : Option (List Char) := none
  command : Option (List Char) := none
  query : Option (List Char) := none
  url : Option (List Char) := none
deriving DecidableEq

inductive ContentBlock where
  | text (s : List Char)
  | tool_use (name : Option (List Char)) (input : ToolInput)
  | tool_result
  | other
deriving DecidableEq

/-- Embedding of the `ExecuteResult` record resolved by the reader. -/
structure ExecuteResult where
  success : Bool
  output : List Char
  sessionId : Option (List Char)
  error : Option (List Char)
deriving DecidableEq

inductive StreamEvent where
  | system (subtype : List Char) (session_id : Option (List Char))
  | assistant (content : List ContentBlock)
  | userMsg (content : List ContentBlock)
  | result (is_error : Bool) (res : Option (List Char))
      (errors : Option (List (List Char))) (session_id : Option (List Char))
  | otherEvent
deriving DecidableEq

/-- The reader's mutable state: session id, accumulated text, the tool
window flag, the captured terminal result, and the histories of
`onTextChunk` and `onProgress` invocations. -/
structure ReaderState where
  currentSessionId : Option (List Char)
  accumulatedText : List Char
  isProcessingTools : Bool
  lastResult : Option ExecuteResult
  textChunkCalls : List (List Char)
  progressCalls : List (List Char)
deriving DecidableEq

def initialReaderState : ReaderState :=
  { currentSessionId := none, accumulatedText := [], isProcessingTools := false,
    lastResult := none, textChunkCalls := [], progressCalls := [] }

/-- JS truthiness of an optional string: present and nonempty. -/
def jsTruthy : Option (List Char) → Option (List Char)
  | some s => if s = [] then none else some s
  | none => none

/-- The per-tool progress message templates of the `tool_use` branch. -/
def progressMsgFor (toolName : List Char) (input : ToolInput) : List Char :=
  if toolName = cs "Read" ∧ (jsTruthy input.file_path).isSome then
    cs "Reading: " ++ (jsTruthy input.file_path).getD []
  else if toolName = cs "Grep" ∧ (jsTruthy input.pattern).isSome then
    cs "Searching for: " ++ (jsTruthy input.pattern).getD []
  else if toolName = cs "Glob" ∧ (jsTruthy input.pattern).isSome then
    cs "Finding files: " ++ (jsTruthy input.pattern).getD []
  else if toolName = cs "Bash" ∧ (jsTruthy input.command).isSome then
    cs "Running: " ++ ((jsTruthy input.command).getD []).take 50 ++
      (if ((jsTruthy input.command).getD []).length > 50 then cs "..." else [])
  else if toolName = cs "Edit" ∧ (jsTruthy input.file_path).isSome then
    cs "Editing: " ++ (jsTruthy input.file_path).getD []
  else if toolName = cs "Write" ∧ (jsTruthy input.file_path).isSome then
    cs "Writing: " ++ (jsTruthy input.file_path).getD []
  else if toolName = cs "WebSearch" ∧ (jsTruthy input.query).isSome then
    cs "Searching web: " ++ (jsTruthy input.query).getD []
  else if toolName = cs "WebFetch" ∧ (jsTruthy input.url).isSome then
    cs "Fetching: " ++ (jsTruthy input.url).getD []
  else
    cs "Using " ++ toolName ++ cs "..."

/-- Per-block handling inside an `assistant` event: the cumulative-text rule
guarded by the tool window flag, and the tool-use progress branch. -/
def assistantBlockStep (st : ReaderState) (b : ContentBlock) : ReaderState :=
  match b with
  | .text s =>
    if s ≠ [] then
      if s.length > st.accumulatedText.length then
        if st.isProcessingTools = false then
          { st with accumulatedText := s, textChunkCalls := st.textChunkCalls ++ [s] }
        else st
      else st
    else st
  | .tool_use name input =>
    { st with
      isProcessingTools := true,
      progressCalls := st.progressCalls ++
        [progressMsgFor ((jsTruthy name).getD (cs "unknown")) input] }
  | .tool_result => st
  | .other => st

/-- Per-block handling inside a `user` event: a `tool_result` block closes
the tool window (its content is only logged). -/
def userBlockStep (st : ReaderState) (b : ContentBlock) : ReaderState :=
  match b with
  | .tool_result => { st with isProcessingTools := false }
  | _ => st

/-- The `ExecuteResult` recorded at a `result` event, computed from the
reader state at that point: JS `||` fallbacks for output and session id, and
the error message taken from `result` or the joined `errors` array. -/
def mkResultRecord (st : ReaderState) (isErr : Bool) (res : Option (List Char))
    (errs : Option (List (List Char))) (sid : Option (List Char)) : ExecuteResult :=
  { success := !isErr,
    output := (jsTruthy res).getD st.accumulatedText,
    sessionId := (match jsTruthy sid with
      | some s => some s
      | none => st.currentSessionId),
    error := (if isErr then
        match jsTruthy res with
        | some r => some r
        | none => (match errs with
          | some l => if l.length ≠ 0 then some (List.intercalate (cs "; ") l) else none
          | none => none)
      else none) }

/-- Embedding of the per-event dispatch of `executeClaudeQueryStreaming`. -/
def processEvent (st : ReaderState) (e : StreamEvent) : ReaderState :=
  match e with
  | .system subtype sid =>
    if subtype = cs "init" ∧ (jsTruthy sid).isSome then
      { st with currentSessionId := jsTruthy sid }
    else st
  | .assistant content => content.foldl assistantBlockStep st
  | .userMsg content => content.foldl userBlockStep st
  | .result isErr res errs sid =>
    { st with lastResult := some (mkResultRecord st isErr res errs sid) }
  | .otherEvent => st

/-- Reader state after a whole event sequence, from the fresh state. -/
def runEvents (es : List StreamEvent) : ReaderState :=
  es.foldl processEvent initialReaderState

def toolInputOfJson (o : Option Json) : ToolInput :=
  match o with
  | some j =>
    { file_path := strField j "file_path", pattern := strField j "pattern",
      command := strField j "command", query := strField j "query",
      url := strField j "url" }
  | none => {}

def blockOfJson (j : Json) : ContentBlock :=
  match strField j "type" with
  | some t =>
    if t = cs "text" then ContentBlock.text ((strField j "text").getD [])
    else if t = cs "tool_use" then
      ContentBlock.tool_use (strField j "name") (toolInputOfJson (jsonField j "input"))
    else if t = cs "tool_result" then ContentBlock.tool_result
    else ContentBlock.other
  | none => ContentBlock.other

def contentBlocksOfJson (j : Json) : List ContentBlock :=
  match jsonField j "message" with
  | some m =>
    match jsonField m "content" with
    | some (.jarr xs) => xs.map blockOfJson
    | _ => []
  | none => []

def strListField (j : Json) (key : String) : Option (List (List Char)) :=
  match jsonField j key with
  | some (.jarr xs) =>
    some (xs.map (fun x => match x with | .jstr s => s | _ => []))
  | _ => none

/-- Classify one parsed JSON value as the stream event the reader consumes;
shapes the reader does not inspect become `otherEvent`. -/
def eventOfJson (j : Json) : StreamEvent :=
  match strField j "type" with
  | some t =>
    if t = cs "system" then
      StreamEvent.system ((strField j "subtype").getD []) (strField j "session_id")
    else if t = cs "assistant" then StreamEvent.assistant (contentBlocksOfJson j)
    else if t = cs "user" then StreamEvent.userMsg (contentBlocksOfJson j)
    else if t = cs "result" then
      StreamEvent.result (jsTruthyJson (jsonField j "is_error")) (strField j "result")
        (strListField j "errors") (strField j "session_id")
    else StreamEvent.otherEvent
  | none => StreamEvent.otherEvent

/-- JS `String.prototype.trim` whitespace test, for the characters the
protocol can emit. -/
def isTrimWs (c : Char) : Bool :=
  c == ' ' || c == '\t' || c == '\n' || c == '\r' || c == Char.ofNat 11 || c == Char.ofNat 12

def jsTrim (s : List Char) : List Char :=
  ((s.dropWhile isTrimWs).reverse.dropWhile isTrimWs).reverse

/-- Embedding of the stdout `data` handler: split the chunk on newlines,
keep the lines whose trim is nonempty, `JSON.parse` each kept line and
process the event, silently skipping lines that fail to parse.  There is no
carry-over of a partial trailing line into the next chunk. -/
def processStdoutChunk (st : ReaderState) (chunk : List Char) : ReaderState :=
  ((chunk.splitOn newlineChar).filter (fun l => jsTrim l ≠ [])).foldl
    (fun s line =>
      match jsonParse line with
      | some j => processEvent s (eventOfJson j)
      | none => s) st

/-- The reader's cumulative state over a sequence of stdout chunks. -/
def processChunks (chunks : List (List Char)) : ReaderState :=
  chunks.foldl processStdoutChunk initialReaderState

/-! ## C1: chunk-boundary handling of the line reader -/

/-- One complete protocol line, newline-terminated: a `system`/`init` event
carrying a session id. -/
def c1Line : List Char :=
  cs "\x7b\"type\":\"system\",\"subtype\":\"init\",\"session_id\":\"abc\"\x7d\n"

/-- C1 evaluation: the same bytes delivered as one chunk produce the `init`
event and capture the session id, but delivered as two chunks split inside
the line they produce no event at all — both fragments fail `JSON.parse` and
are silently dropped, because the handler splits each `data` chunk on
newlines with no carry-over buffer.  The processed events therefore depend
on where chunk boundaries fall, not only on the concatenated stream. -/
theorem chunk_boundary_dependence :
    c1Line.take 30 ++ c1Line.drop 30 = c1Line
    ∧ processChunks [c1Line] =
        { initialReaderState with currentSessionId := some (cs "abc") }
    ∧ processChunks [c1Line.take 30, c1Line.drop 30] = initialReaderState
    ∧ processChunks [c1Line.take 30, c1Line.drop 30] ≠ processChunks [c1Line] := by
  refine ⟨List.take_append_drop 30 c1Line, by decide, by decide, by decide⟩

/-! ## C4 and C5: the cumulative-text rule and the tool window -/

/-- A stream of assistant events carrying one text block each, folded from
an arbitrary starting state. -/
def runTextEvents (st : ReaderState) (ts : List (List Char)) : ReaderState :=
  ts.foldl (fun s t => processEvent s (StreamEvent.assistant [ContentBlock.text t])) st

theorem assistantText_step_cases (st : ReaderState) (t : List Char)
    (hp : st.isProcessingTools = false) :
    (assistantBlockStep st (ContentBlock.text t) = st
      ∧ t.length ≤ st.accumulatedText.length)
    ∨ (assistantBlockStep st (ContentBlock.text t) =
        { st with accumulatedText := t, textChunkCalls := st.textChunkCalls ++ [t] }
      ∧ st.accumulatedText.length < t.length) := by
  simp only [assistantBlockStep]
  by_cases h0 : t = []
  · rw [if_neg (by simp [h0])]
    exact Or.inl ⟨rfl, by simp [h0]⟩
  · rw [if_pos h0]
    by_cases h1 : t.length > st.accumulatedText.length
    · rw [if_pos h1, if_pos hp]
      exact Or.inr ⟨rfl, h1⟩
    · rw [if_neg h1]
      exact Or.inl ⟨rfl, by omega⟩

theorem assistantText_step_tools (st : ReaderState) (t : List Char) :
    (assistantBlockStep st (ContentBlock.text t)).isProcessingTools
      = st.isProcessingTools := by
  simp only [assistantBlockStep]
  split_ifs <;> rfl

theorem runTextEvents_aux (ts : List (List Char)) :
    ∀ st : ReaderState, st.isProcessingTools = false →
      ((runTextEvents st ts).accumulatedText = st.accumulatedText
        ∨ (runTextEvents st ts).accumulatedText ∈ ts)
      ∧ st.accumulatedText.length ≤ (runTextEvents st ts).accumulatedText.length
      ∧ ∀ t ∈ ts, t.length ≤ (runTextEvents st ts).accumulatedText.length := by
  induction ts with
  | nil =>
    intro st _
    refine ⟨Or.inl rfl, le_refl _, ?_⟩
    intro t ht
    simp at ht
  | cons t ts ih =>
    intro st hp
    have hrun : runTextEvents st (t :: ts)
        = runTextEvents (assistantBlockStep st (ContentBlock.text t)) ts := rfl
    have hpres : (assistantBlockStep st (ContentBlock.text t)).isProcessingTools
        = false := by
      rw [assistantText_step_tools]
      exact hp
    obtain ⟨ihmem, ihmono, ihall⟩ :=
      ih (assistantBlockStep st (ContentBlock.text t)) hpres
    rcases assistantText_step_cases st t hp with ⟨heq, hle⟩ | ⟨heq, hgt⟩
    · have ha : (assistantBlockStep st (ContentBlock.text t)).accumulatedText
          = st.accumulatedText := by rw [heq]
      rw [ha] at ihmem ihmono
      rw [hrun]
      refine ⟨?_, ihmono, ?_⟩
      · rcases ihmem with h | h
        · exact Or.inl h
        · exact Or.inr (List.mem_cons_of_mem _ h)
      · intro u hu
        rcases List.mem_cons.mp hu with rfl | hu
        · omega
        · exact ihall u hu
    · have ha : (assistantBlockStep st (ContentBlock.text t)).accumulatedText = t := by
        rw [heq]
      rw [ha] at ihmem ihmono
      rw [hrun]
      refine ⟨?_, by omega, ?_⟩
      · rcases ihmem with h | h
        · rw [h]
          exact Or.inr (List.mem_cons_self t ts)
        · exact Or.inr (List.mem_cons_of_mem _ h)
      · intro u hu
        rcases List.mem_cons.mp hu with rfl | hu
        · exact ihmono
        · exact ihall u hu

/-- C4: over a stream of assistant events with one text block each, of
monotonically non-decreasing lengths and with no tool invocation, the final
accumulated text is one of the blocks and no block is longer — it is the
longest block seen; and every strictly longer text block replaces the
accumulated text and is passed in full to `onTextChunk`. -/
theorem accumulate_longest (ts : List (List Char))
    (hmono : ts.Chain' (fun a b => a.length ≤ b.length)) :
    ((ts ≠ [] →
      (runEvents (ts.map (fun t => StreamEvent.assistant [ContentBlock.text t]))).accumulatedText
        ∈ ts)
    ∧ ∀ t ∈ ts, t.length ≤
        (runEvents (ts.map (fun t => StreamEvent.assistant [ContentBlock.text t]))).accumulatedText.length)
    ∧ ∀ (st : ReaderState) (s : List Char), st.isProcessingTools = false → s ≠ [] →
        s.length > st.accumulatedText.length →
        assistantBlockStep st (ContentBlock.text s) =
          { st with accumulatedText := s, textChunkCalls := st.textChunkCalls ++ [s] } := by
  have hrun : runEvents (ts.map (fun t => StreamEvent.assistant [ContentBlock.text t]))
      = runTextEvents initialReaderState ts := by
    unfold runEvents runTextEvents
    rw [List.foldl_map]
  obtain ⟨hmem, _, hall⟩ := runTextEvents_aux ts initialReaderState rfl
  refine ⟨⟨?_, ?_⟩, ?_⟩
  · intro hne
    rw [hrun]
    rcases hmem with h | h
    · cases ts with
      | nil => exact absurd rfl hne
      | cons a as =>
        have ha := hall a (List.mem_cons_self a as)
        rw [h] at ha
        have hanil : a = [] := by
          have h0 : a.length = 0 := by simpa [initialReaderState] using ha
          exact List.length_eq_zero.mp h0
        rw [h]
        exact List.mem_cons.mpr (Or.inl hanil.symm)
    · exact h
  · intro t ht
    rw [hrun]
    exact hall t ht
  · intro st s hp hne hgt
    rcases assistantText_step_cases st s hp with ⟨_, hle⟩ | ⟨heq, _⟩
    · exact absurd hgt (by omega)
    · exact heq

/-- C4 witness: two blocks of non-decreasing lengths; the accumulated text
is a member of the stream, and a strictly longer block from the fresh state
is surfaced. -/
theorem accumulate_longest_witness :
    (runEvents ([cs "a", cs "ab"].map
        (fun t => StreamEvent.assistant [ContentBlock.text t]))).accumulatedText
      ∈ [cs "a", cs "ab"]
    ∧ assistantBlockStep initialReaderState (ContentBlock.text (cs "a")) =
        { initialReaderState with
          accumulatedText := cs "a",
          textChunkCalls := [] ++ [cs "a"] } := by
  have h := accumulate_longest [cs "a", cs "ab"] (List.chain'_pair.mpr (by decide))
  exact ⟨h.1.1 (by decide), h.2 initialReaderState (cs "a") rfl (by decide) (by decide)⟩

/-- The tool-window counterexample stream: a tool invocation opens the
window, a text block arrives inside it, the matching `tool_result` closes
it, and the stream ends. -/
def c5Stream : List StreamEvent :=
  [ StreamEvent.assistant [ContentBlock.tool_use (some (cs "Bash"))
      { command := some (cs "ls") }],
    StreamEvent.assistant [ContentBlock.text (cs "hello")],
    StreamEvent.userMsg [ContentBlock.tool_result] ]

/-- C5 counterexample: the text block arriving inside the open tool window
is never surfaced — after the window closes the stream carries no further
text, yet `onTextChunk` was never called and the accumulated text is still
empty; the text was dropped, not buffered for surfacing at window close. -/
theorem tool_window_text_dropped_cex :
    (runEvents c5Stream).textChunkCalls = []
    ∧ (runEvents c5Stream).accumulatedText = []
    ∧ (runEvents c5Stream).isProcessingTools = false := by
  refine ⟨by decide, by decide, by decide⟩

/-- C5 (amended): text blocks arriving while the tool window is open are
not surfaced via `onTextChunk` and not buffered — the reader state is left
completely unchanged — and text is surfaced again only when a strictly
longer text block arrives after a `tool_result` has closed the window. -/
theorem tool_window_text_discarded (st : ReaderState) (s : List Char) :
    (st.isProcessingTools = true → assistantBlockStep st (ContentBlock.text s) = st)
    ∧ (userBlockStep st ContentBlock.tool_result).isProcessingTools = false
    ∧ (st.isProcessingTools = false → s ≠ [] →
        s.length > st.accumulatedText.length →
        (assistantBlockStep st (ContentBlock.text s)).textChunkCalls
          = st.textChunkCalls ++ [s]
        ∧ (assistantBlockStep st (ContentBlock.text s)).accumulatedText = s) := by
  refine ⟨?_, rfl, ?_⟩
  · intro hp
    simp only [assistantBlockStep]
    by_cases h0 : s = []
    · rw [if_neg (by simp [h0])]
    · rw [if_pos h0]
      by_cases h1 : s.length > st.accumulatedText.length
      · rw [if_pos h1, if_neg (by simp [hp])]
      · rw [if_neg h1]
  · intro hp hne hgt
    rcases assistantText_step_cases st s hp with ⟨_, hle⟩ | ⟨heq, _⟩
    · exact absurd hgt (by omega)
    · rw [heq]
      exact ⟨rfl, rfl⟩

/-- A reader state with the tool window open. -/
def toolOpenState : ReaderState :=
  { initialReaderState with isProcessingTools := true }

/-- C5 witness: concrete instances of all three amended facts. -/
theorem tool_window_text_discarded_witness :
    assistantBlockStep toolOpenState (ContentBlock.text (cs "hello")) = toolOpenState
    ∧ (userBlockStep toolOpenState ContentBlock.tool_result).isProcessingTools = false
    ∧ (assistantBlockStep initialReaderState (ContentBlock.text (cs "hi"))).textChunkCalls
        = [] ++ [cs "hi"] := by
  have h1 := tool_window_text_discarded toolOpenState (cs "hello")
  have h2 := tool_window_text_discarded initialReaderState (cs "hi")
  exact ⟨h1.1 rfl, h1.2.1, (h2.2.2 rfl (by decide) (by decide)).1⟩

/-! ## C6: handling of `result` events -/

/-- Two consecutive terminal events with opposite outcomes. -/
def c6Stream : List StreamEvent :=
  [ StreamEvent.result false (some (cs "ok")) none none,
    StreamEvent.result true (some (cs "bad")) none none ]

/-- C6 counterexample: a second `result` event overwrites the recorded
outcome — after both events the recorded result differs from the state after
the first event alone, so events after the first `result` are processed, not
ignored. -/
theorem result_overwritten_cex :
    (runEvents c6Stream).lastResult ≠ (runEvents (c6Stream.take 1)).lastResult
    ∧ (runEvents c6Stream).lastResult =
        some { success := false, output := cs "bad", sessionId := none,
               error := some (cs "bad") } := by
  refine ⟨by decide, by decide⟩

theorem assistantBlockStep_lastResult (st : ReaderState) (b : ContentBlock) :
    (assistantBlockStep st b).lastResult = st.lastResult := by
  cases b with
  | text s =>
    simp only [assistantBlockStep]
    split_ifs <;> rfl
  | tool_use name input => rfl
  | tool_result => rfl
  | other => rfl

theorem userBlockStep_lastResult (st : ReaderState) (b : ContentBlock) :
    (userBlockStep st b).lastResult = st.lastResult := by
  cases b <;> rfl

theorem processEvent_lastResult (st : ReaderState) (e : StreamEvent)
    (he : ∀ a b c d, e ≠ StreamEvent.result a b c d) :
    (processEvent st e).lastResult = st.lastResult := by
  cases e with
  | system subtype sid =>
    simp only [processEvent]
    split_ifs <;> rfl
  | assistant content =>
    clear he
    show (content.foldl assistantBlockStep st).lastResult = st.lastResult
    induction content generalizing st with
    | nil => rfl
    | cons b l ih =>
      rw [List.foldl_cons, ih, assistantBlockStep_lastResult]
  | userMsg content =>
    clear he
    show (content.foldl userBlockStep st).lastResult = st.lastResult
    induction content generalizing st with
    | nil => rfl
    | cons b l ih =>
      rw [List.foldl_cons, ih, userBlockStep_lastResult]
  | result a b c d => exact absurd rfl (he a b c d)
  | otherEvent => rfl

/-- C6 (amended): the recorded outcome of the turn is the one computed at
the last `result` event from the reader state at that point; non-result
events arriving afterwards are still processed but leave the recorded result
unchanged. -/
theorem last_result_wins (es fs : List StreamEvent)
    (isErr : Bool) (res : Option (List Char)) (errs : Option (List (List Char)))
    (sid : Option (List Char))
    (hfs : ∀ e ∈ fs, ∀ a b c d, e ≠ StreamEvent.result a b c d) :
    (runEvents (es ++ StreamEvent.result isErr res errs sid :: fs)).lastResult =
      some (mkResultRecord (runEvents es) isErr res errs sid) := by
  have hpres : ∀ (l : List StreamEvent) (st : ReaderState),
      (∀ e ∈ l, ∀ a b c d, e ≠ StreamEvent.result a b c d) →
      (l.foldl processEvent st).lastResult = st.lastResult := by
    intro l
    induction l with
    | nil => intro st _; rfl
    | cons e l ih =>
      intro st hl
      rw [List.foldl_cons, ih _ (fun e' he' => hl e' (List.mem_cons_of_mem _ he')),
        processEvent_lastResult st e (hl e (List.mem_cons_self e l))]
  unfold runEvents
  rw [List.foldl_append, List.foldl_cons, hpres fs _ hfs]
  rfl

/-- C6 witness: after the two-result stream, a third late result followed by
a further non-result event still leaves the last result's record. -/
theorem last_result_wins_witness :
    (runEvents (c6Stream ++ StreamEvent.result true (some (cs "late")) none none ::
        [StreamEvent.system (cs "init") (some (cs "zzz"))])).lastResult =
      some (mkResultRecord (runEvents c6Stream) true (some (cs "late")) none none) :=
  last_result_wins c6Stream [StreamEvent.system (cs "init") (some (cs "zzz"))]
    true (some (cs "late")) none none
    (by
      intro e he a b c d
      simp only [List.mem_singleton] at he
      subst he
      simp)
